import Mathlib

/-!
Verification of the htmap mapper against its specification.

The development shallowly embeds `src/htcmap/mapper.py`:
pure helpers (`zip_args_and_kwargs`, the `productmap` dict expansion,
the `htcmap` decorator) become Lean functions on lists; the stateful
submission planner `HTCMapper._map` becomes explicit state passing over
a `MapState` record whose fields model the on-disk regions (output
blobs, input-blob writes, submission manifests); fallible operations
(`MapResult.get`, `MapResult._item_to_hash`) return `Except`.

A fingerprint (the content hash of one work item's serialized
arguments) is modelled as a list of characters, since the manifest
round-trip claims are about the textual newline-joined manifest files.
-/

/-- A fingerprint: the hex content hash of one work item's serialized
`(args, kwargs)` pair, as a character sequence. -/
abbrev Fingerprint : Type := List Char

/-- Embedding of `zip_args_and_kwargs` (mapper.py:440).  The source drains two
iterators in lock-step; once one raises `StopIteration` it is replaced by
`itertools.repeat` of its fill value (the empty tuple `()` for positional
arguments, the empty dict for keyword arguments), and the generator returns
once both iterators have been exhausted.  Tuples are embedded as `List α`,
dicts as association lists `List (κ × β)`; the fills are therefore both `[]`. -/
def zip_args_and_kwargs {α κ β : Type} :
    List (List α) → List (List (κ × β)) → List (List α × List (κ × β))
  | [], ks => ks.map (fun k => ([], k))
  | a :: as, [] => (a, []) :: zip_args_and_kwargs as []
  | a :: as, k :: ks => (a, k) :: zip_args_and_kwargs as ks

theorem zip_args_and_kwargs_length {α κ β : Type}
    (args : List (List α)) (kwargs : List (List (κ × β))) :
    (zip_args_and_kwargs args kwargs).length = max args.length kwargs.length := by
  induction args generalizing kwargs with
  | nil => simp [zip_args_and_kwargs]
  | cons a as ih =>
    cases kwargs with
    | nil =>
      have h := ih ([] : List (List (κ × β)))
      simp [zip_args_and_kwargs] at h ⊢
      omega
    | cons k ks =>
      have h := ih ks
      simp [zip_args_and_kwargs] at h ⊢
      omega

theorem zip_args_and_kwargs_getD {α κ β : Type}
    (args : List (List α)) (kwargs : List (List (κ × β))) :
    ∀ i, i < max args.length kwargs.length →
      (zip_args_and_kwargs args kwargs).getD i ([], []) =
        (args.getD i [], kwargs.getD i []) := by
  induction args generalizing kwargs with
  | nil =>
    intro i hi
    induction kwargs generalizing i with
    | nil => simp at hi
    | cons k ks ih =>
      cases i with
      | zero => simp [zip_args_and_kwargs]
      | succ j =>
        simp only [zip_args_and_kwargs, List.map_cons, List.getD_cons_succ]
        have hj : j < max ([] : List (List α)).length ks.length := by
          simp at hi ⊢; omega
        have h := ih j hj
        simp only [zip_args_and_kwargs] at h
        exact h
  | cons a as ih =>
    cases kwargs with
    | nil =>
      intro i hi
      cases i with
      | zero => simp [zip_args_and_kwargs]
      | succ j =>
        simp only [zip_args_and_kwargs, List.getD_cons_succ]
        have hj : j < max as.length ([] : List (List (κ × β))).length := by
          simp at hi ⊢; omega
        have h := ih ([] : List (List (κ × β))) j hj
        simpa using h
    | cons k ks =>
      intro i hi
      cases i with
      | zero => simp [zip_args_and_kwargs]
      | succ j =>
        simp only [zip_args_and_kwargs, List.getD_cons_succ]
        have hj : j < max as.length ks.length := by simp at hi ⊢; omega
        exact ih ks j hj

/-- C3: for finite iterables of positional-argument tuples (length `m`) and
keyword mappings (length `n`), `zip_args_and_kwargs` yields exactly
`max m n` pairs; pair `i` combines the `i`-th element of each iterable while
both are unexhausted, and once one side is exhausted its side of every
remaining pair is its neutral element (`[]`, the empty tuple resp. the
empty mapping).  `getD i ([], [])` returns the `i`-th element of the list
of yielded pairs. -/
theorem zip_args_and_kwargs_spec {α κ β : Type}
    (args : List (List α)) (kwargs : List (List (κ × β))) :
    (zip_args_and_kwargs args kwargs).length = max args.length kwargs.length
    ∧ ∀ i, i < max args.length kwargs.length →
        (zip_args_and_kwargs args kwargs).getD i ([], []) =
          (args.getD i [], kwargs.getD i []) :=
  ⟨zip_args_and_kwargs_length args kwargs, zip_args_and_kwargs_getD args kwargs⟩

/-- Witness for C3 at a concrete ragged input: three positional tuples
against one keyword mapping. -/
theorem zip_args_and_kwargs_spec_witness :
    (zip_args_and_kwargs [[1], [2], [3]]
        [[(("x" : String), (5 : Nat))]]).length = 3
    ∧ (zip_args_and_kwargs [[1], [2], [3]]
        [[(("x" : String), (5 : Nat))]]).getD 1 ([], []) = ([2], []) := by
  have h := zip_args_and_kwargs_spec [[1], [2], [3]] [[(("x" : String), (5 : Nat))]]
  refine ⟨h.1.trans (by decide), (h.2 1 (by decide)).trans (by decide)⟩

/-- C4 counterexample: star-mapping three positional tuples against one
keyword mapping does NOT pair every item with the sole keyword mapping;
the items after the first are padded with the empty mapping instead. -/
theorem starmap_ragged_counterexample :
    ¬ (∀ p ∈ zip_args_and_kwargs [[(1 : Nat)], [2], [3]]
          [[(("x" : String), (5 : Nat))]], p.2 = [("x", 5)]) := by
  decide

/-- C4 amended: star-mapping 3 positional tuples against 1 keyword mapping
yields 3 work items, the first paired with the sole keyword mapping and the
remaining two with the empty mapping (the neutral fill); star-mapping
1 positional tuple against 3 keyword mappings yields 3 work items, the
first paired with the sole positional tuple and the remaining two with the
empty tuple. -/
theorem starmap_ragged_amended :
    zip_args_and_kwargs [[(1 : Nat)], [2], [3]] [[(("x" : String), (5 : Nat))]] =
      [([1], [("x", 5)]), ([2], []), ([3], [])]
    ∧ zip_args_and_kwargs [[(1 : Nat)]]
        [[(("x" : String), (5 : Nat))], [("x", 6)], [("x", 7)]] =
      [([1], [("x", 5)]), ([], [("x", 6)]), ([], [("x", 7)])] := by
  decide

/-- Embedding of Python dict assignment `d[key] = v` on an insertion-ordered
association list: an existing key keeps its position and has its value
replaced; a new key is appended at the end. -/
def dictSet {κ β : Type} [DecidableEq κ] : List (κ × β) → κ → β → List (κ × β)
  | [], k, v => [(k, v)]
  | (k', v') :: rest, k, v =>
    if k' = k then (k', v) :: rest else (k', v') :: dictSet rest k v

/-- Embedding of `zip(dicts, itertools.cycle(values))` truncated to the
length of `dicts`: `cycleTake orig n cur` yields the next `n` elements of
the cyclic iterator over `orig` whose not-yet-consumed tail of the current
pass is `cur`.  When the current pass is exhausted the iterator restarts at
`orig`; a cycle over an empty iterable is empty, matching
`itertools.cycle(())`. -/
def cycleTake {β : Type} (orig : List β) : Nat → List β → List β
  | 0, _ => []
  | n + 1, [] =>
    match orig with
    | [] => []
    | o :: os => o :: cycleTake orig n os
  | n + 1, v :: vs => v :: cycleTake orig n vs

/-- One pass of the `for key, values in kwargs.items()` loop of
`HTCMapper.productmap` (mapper.py:329): every accumulated dict is deep-copied
once per value (`[deepcopy(d) for d in dicts for _ in range(len(values))]`),
and then `for d, v in zip(dicts, itertools.cycle(values)): d[key] = v`
assigns the cycled values across the replicated dicts. -/
def productStep {κ β : Type} [DecidableEq κ]
    (dicts : List (List (κ × β))) (key : κ) (values : List β) :
    List (List (κ × β)) :=
  let replicated := dicts.flatMap (fun d => List.replicate values.length d)
  let cycled := cycleTake values replicated.length values
  (replicated.zip cycled).map (fun p => dictSet p.1 key p.2)

/-- The full keyword expansion of `HTCMapper.productmap`: starting from the
single empty dict `[{}]`, fold the per-key pass over the keyword value-lists
in their given (insertion) order. -/
def productDicts {κ β : Type} [DecidableEq κ]
    (kwargs : List (κ × List β)) : List (List (κ × β)) :=
  kwargs.foldl (fun dicts kv => productStep dicts kv.1 kv.2) [[]]

/-- The work items produced by `productmap`: the constant positional tuple
zipped (`zip(itertools.repeat(args), dicts)`) against the expanded keyword
dicts. -/
def productmapItems {α κ β : Type} [DecidableEq κ]
    (args : α) (kwargs : List (κ × List β)) : List (α × List (κ × β)) :=
  (productDicts kwargs).map (fun d => (args, d))

theorem cycleTake_restart {β : Type} (orig : List β) (n : Nat) :
    cycleTake orig n [] = cycleTake orig n orig := by
  cases n with
  | zero => cases orig <;> simp [cycleTake]
  | succ m => cases orig <;> simp [cycleTake]

theorem cycleTake_append {β : Type} (orig : List β) :
    ∀ (cur : List β) (m : Nat),
      cycleTake orig (cur.length + m) cur = cur ++ cycleTake orig m [] := by
  intro cur
  induction cur with
  | nil => intro m; simp
  | cons v vs ih =>
    intro m
    have hlen : (v :: vs).length + m = (vs.length + m) + 1 := by
      simp [List.length_cons]; omega
    rw [hlen]
    simp only [cycleTake, List.cons_append, List.cons.injEq, true_and]
    exact ih m

theorem zip_replicate_self {β δ : Type} (d : δ) (vs : List β) :
    (List.replicate vs.length d).zip vs = vs.map (fun v => (d, v)) := by
  induction vs with
  | nil => simp
  | cons v t ih => simp [List.replicate, ih]

theorem productStep_eq_flatMap {κ β : Type} [DecidableEq κ]
    (dicts : List (List (κ × β))) (key : κ) (values : List β) :
    productStep dicts key values =
      dicts.flatMap (fun d => values.map (fun v => dictSet d key v)) := by
  induction dicts with
  | nil => simp [productStep]
  | cons d ds ih =>
    simp only [productStep, List.flatMap_cons]
    have hrep :
        (List.replicate values.length d ++
            ds.flatMap (fun d => List.replicate values.length d)).length =
          values.length +
            (ds.flatMap (fun d => List.replicate values.length d)).length := by
      simp
    rw [hrep]
    have hcyc :
        cycleTake values
            (values.length +
              (ds.flatMap (fun d => List.replicate values.length d)).length)
            values =
          values ++
            cycleTake values
              (ds.flatMap (fun d => List.replicate values.length d)).length
              values := by
      have h1 := cycleTake_append values values
        (ds.flatMap (fun d => List.replicate values.length d)).length
      rw [cycleTake_restart] at h1
      exact h1
    rw [hcyc]
    rw [List.zip_append (by simp)]
    rw [List.map_append]
    have h2 :
        ((ds.flatMap (fun d => List.replicate values.length d)).zip
            (cycleTake values
              (ds.flatMap (fun d => List.replicate values.length d)).length
              values)).map (fun p => dictSet p.1 key p.2) =
          ds.flatMap (fun d => values.map (fun v => dictSet d key v)) := ih
    rw [h2, zip_replicate_self]
    simp [List.map_map, Function.comp]

/-- C5: product-mapping keyword value-lists `x = [1, 2]`, `y = [10, 20]`
yields exactly 4 work items whose keyword mappings are, in order,
`(x:1, y:10), (x:1, y:20), (x:2, y:10), (x:2, y:20)`; and in general the
expansion is produced in nested order with later keys varying fastest:
appending a key with value-list `vs` turns each previously produced dict
`d` into the consecutive block `vs.map (dictSet d k)`.  Reproducibility on
every call is inherent: the expansion is a pure function of the ordered
keyword value-lists. -/
theorem productmap_order_spec {κ β : Type} [DecidableEq κ]
    (kvs : List (κ × List β)) (k : κ) (vs : List β) :
    productmapItems (0 : Nat) [(("x" : String), [1, 2]), ("y", [10, 20])] =
      [(0, [("x", 1), ("y", 10)]), (0, [("x", 1), ("y", 20)]),
       (0, [("x", 2), ("y", 10)]), (0, [("x", 2), ("y", 20)])]
    ∧ productDicts (kvs ++ [(k, vs)]) =
        (productDicts kvs).flatMap (fun d => vs.map (fun v => dictSet d k v)) := by
  constructor
  · decide
  · simp only [productDicts, List.foldl_append, List.foldl_cons, List.foldl_nil]
    exact productStep_eq_flatMap _ k vs

/-- Embedding of Python `sep.join(strings)` on character lists, as used by
`'\n'.join(hashes)` when `_map` persists a manifest (mapper.py:402). -/
def pyJoin (sep : List Char) : List (List Char) → List Char
  | [] => []
  | [s] => s
  | s :: rest => s ++ sep ++ pyJoin sep rest

/-- The characters stripped by Python `str.strip()` that can occur in this
development's texts (ASCII whitespace). -/
def isPyWhitespace (c : Char) : Bool :=
  c = ' ' || c = '\t' || c = '\n' || c = '\r' ||
    c = Char.ofNat 11 || c = Char.ofNat 12

/-- Embedding of Python `str.strip()`: drop leading and trailing
whitespace. -/
def pyStrip (s : List Char) : List Char :=
  ((s.dropWhile isPyWhitespace).reverse.dropWhile isPyWhitespace).reverse

/-- Helper for `pyLines`: Python text-file line iteration with an
accumulator holding the (reversed) current partial line. -/
def pyLinesAux (acc : List Char) : List Char → List (List Char)
  | [] => if acc.isEmpty then [] else [acc.reverse]
  | c :: cs =>
    if c = '\n' then (acc.reverse ++ ['\n']) :: pyLinesAux [] cs
    else pyLinesAux (c :: acc) cs

/-- Embedding of iterating over a Python text file's lines
(`for h in file` in `MapResult.from_clusterid`, mapper.py:67): each yielded
line keeps its trailing newline; a final line without a newline is yielded
as-is; an empty file yields nothing. -/
def pyLines (s : List Char) : List (List Char) := pyLinesAux [] s

/-- Hex digits, the alphabet of fingerprints.  Modelled from the spec:
`htcio.hash_bytes` is not under src/; the spec (section 3) fixes a
fingerprint to be a fixed-length hex string. -/
def hexAlphabet : List Char :=
  ['f', 'e', 'd', 'c', 'b', 'a',
   '9', '8', '7', '6', '5', '4', '3', '2', '1', '0']

def isHexDigit (c : Char) : Bool := decide (c ∈ hexAlphabet)

/-- A well-formed fingerprint: nonempty and made of hex digits only.
Modelled from the spec (section 3): a fingerprint is a fixed-length
content-hash hex string. -/
def validFingerprint (h : Fingerprint) : Bool :=
  !h.isEmpty && h.all isHexDigit

/-- The per-mapper on-disk state visible to `HTCMapper._map`:
`outputs` is the set of fingerprints with an existing output blob
(`<outputs>/<hash>.out`), `inputWrites` is the log of input-blob writes
(`htcio.save_bytes` calls, in order; content is determined by the
fingerprint, so only the fingerprint is logged), and `manifests` maps a
cluster id to the textual content of its `<clusterid>.hashes` file, most
recent write first (lookup takes the first match, so prepending models
overwriting). -/
structure MapState where
  outputs : List Fingerprint
  inputWrites : List Fingerprint
  manifests : List (Nat × List Char)
deriving DecidableEq

/-- Embedding of the `MapResult` handle: the optional cluster id and the
full ordered fingerprint sequence.  The source also stores
`hash_set = set(hashes)`; set membership is modelled by list
membership. -/
structure MapResult where
  clusterid : Option Nat
  hashes : List Fingerprint
deriving DecidableEq

/-- The outcome of one `_map` invocation: the updated on-disk state, the
scheduler submission (`none` when no scheduler call was made, otherwise
the new cluster id and the ordered batch of fingerprints handed to
`queue_with_itemdata`), and the returned handle. -/
structure MapOutcome where
  state : MapState
  submission : Option (Nat × List Fingerprint)
  result : MapResult
deriving DecidableEq

/-- The planning loop of `HTCMapper._map` (mapper.py:350): for each
args-and-kwargs item, compute its fingerprint and append it to `hashes`;
if an output blob already exists, skip the rest of the body; otherwise
write the input blob and append the fingerprint to `new_hashes`.
Fingerprinting (`htcio.hash_bytes(htcio.to_bytes(a_and_k))`) is an
abstract deterministic function `hashOf`, since htcio is not under src/;
the spec (section 4.1) requires it to be a pure function of the item.
Returns `(hashes, new_hashes, updated state)`. -/
def planItems {AK : Type} (hashOf : AK → Fingerprint) (st : MapState) :
    List AK → List Fingerprint × List Fingerprint × MapState
  | [] => ([], [], st)
  | a :: rest =>
    let h := hashOf a
    if h ∈ st.outputs then
      let p := planItems hashOf st rest
      (h :: p.1, p.2.1, p.2.2)
    else
      let st1 : MapState :=
        { st with inputWrites := st.inputWrites ++ [h] }
      let p := planItems hashOf st1 rest
      (h :: p.1, h :: p.2.1, p.2.2)

/-- Embedding of `HTCMapper._map` (mapper.py:349): plan all items; if no
new fingerprints remain, return a handle with `clusterid = None` and make
no scheduler call; otherwise submit the batch of new fingerprints (the
external scheduler assigns `newCid`), persist the manifest file mapping
the cluster id to the newline-joined full fingerprint sequence, and
return the handle. -/
def runMap {AK : Type} (hashOf : AK → Fingerprint) (newCid : Nat)
    (st : MapState) (items : List AK) : MapOutcome :=
  let p := planItems hashOf st items
  let hashes := p.1
  let newHashes := p.2.1
  let st1 := p.2.2
  if newHashes.isEmpty then
    ⟨st1, none, ⟨none, hashes⟩⟩
  else
    let st2 : MapState :=
      { st1 with manifests := (newCid, pyJoin ['\n'] hashes) :: st1.manifests }
    ⟨st2, some (newCid, newHashes), ⟨some newCid, hashes⟩⟩

/-- Modelled from the spec (section 6, execution wrapper contract): the
remote wrapper eventually deposits an output blob at
`<outputs>/<fingerprint>.out` for every submitted fingerprint.  Applying
it to a map outcome yields the on-disk state once the submitted batch has
completed. -/
def wrapperComplete (o : MapOutcome) : MapState :=
  match o.submission with
  | some (_, batch) => { o.state with outputs := o.state.outputs ++ batch }
  | none => o.state

/-- Reading the manifest file `<clusterid>.hashes`: the most recently
written content for that cluster id, if any. -/
def lookupManifest (st : MapState) (cid : Nat) : Option (List Char) :=
  (st.manifests.find? (fun p => p.1 == cid)).map Prod.snd

/-- Embedding of `MapResult.from_clusterid` (mapper.py:65): open the
manifest file for the cluster id and rebuild the handle from its stripped
lines; `none` models the `FileNotFoundError` when no manifest exists. -/
def from_clusterid (st : MapState) (cid : Nat) : Option MapResult :=
  (lookupManifest st cid).map fun content =>
    ⟨some cid, (pyLines content).map pyStrip⟩

/-- The batch of fingerprints lacking a cached output: the `new_hashes`
subset that `_map` submits, in request order. -/
def newBatch (st : MapState) (hs : List Fingerprint) : List Fingerprint :=
  hs.filter (fun h => decide (h ∉ st.outputs))

theorem planItems_hashes {AK : Type} (hashOf : AK → Fingerprint) :
    ∀ (items : List AK) (st : MapState),
      (planItems hashOf st items).1 = items.map hashOf := by
  intro items
  induction items with
  | nil => intro st; simp [planItems]
  | cons a rest ih =>
    intro st
    by_cases hmem : hashOf a ∈ st.outputs
    · simp [planItems, hmem, ih]
    · simp [planItems, hmem, ih]

theorem planItems_new {AK : Type} (hashOf : AK → Fingerprint) :
    ∀ (items : List AK) (st : MapState),
      (planItems hashOf st items).2.1 = newBatch st (items.map hashOf) := by
  intro items
  induction items with
  | nil => intro st; simp [planItems, newBatch]
  | cons a rest ih =>
    intro st
    by_cases hmem : hashOf a ∈ st.outputs
    · simp [planItems, hmem, newBatch, List.filter_cons, ih st]
    · have h1 := ih { st with inputWrites := st.inputWrites ++ [hashOf a] }
      simp [planItems, hmem, newBatch, List.filter_cons] at h1 ⊢
      exact h1

theorem planItems_state {AK : Type} (hashOf : AK → Fingerprint) :
    ∀ (items : List AK) (st : MapState),
      (planItems hashOf st items).2.2 =
        { outputs := st.outputs,
          inputWrites := st.inputWrites ++ newBatch st (items.map hashOf),
          manifests := st.manifests } := by
  intro items
  induction items with
  | nil => intro st; simp [planItems, newBatch]
  | cons a rest ih =>
    intro st
    by_cases hmem : hashOf a ∈ st.outputs
    · simp [planItems, hmem, newBatch, List.filter_cons, ih st]
    · have h1 := ih { st with inputWrites := st.inputWrites ++ [hashOf a] }
      simp [planItems, hmem, newBatch, List.filter_cons] at h1 ⊢
      exact h1

/-- Master equation for `runMap`, expressing both branches of `_map` in
terms of the unsatisfied batch. -/
theorem runMap_eq {AK : Type} (hashOf : AK → Fingerprint) (newCid : Nat)
    (st : MapState) (items : List AK) :
    runMap hashOf newCid st items =
      if (newBatch st (items.map hashOf)).isEmpty then
        ⟨{ outputs := st.outputs,
           inputWrites := st.inputWrites ++ newBatch st (items.map hashOf),
           manifests := st.manifests },
         none, ⟨none, items.map hashOf⟩⟩
      else
        ⟨{ outputs := st.outputs,
           inputWrites := st.inputWrites ++ newBatch st (items.map hashOf),
           manifests :=
             (newCid, pyJoin ['\n'] (items.map hashOf)) :: st.manifests },
         some (newCid, newBatch st (items.map hashOf)),
         ⟨some newCid, items.map hashOf⟩⟩ := by
  simp only [runMap]
  rw [planItems_hashes, planItems_new, planItems_state]

theorem mem_newBatch {st : MapState} {hs : List Fingerprint} {h : Fingerprint} :
    h ∈ newBatch st hs ↔ h ∈ hs ∧ h ∉ st.outputs := by
  simp [newBatch]

theorem newBatch_eq_nil_iff {st : MapState} {hs : List Fingerprint} :
    newBatch st hs = [] ↔ ∀ h ∈ hs, h ∈ st.outputs := by
  simp only [newBatch, List.filter_eq_nil_iff]
  constructor
  · intro hf h hh
    have := hf h hh
    simpa using this
  · intro hf h hh
    simpa using hf h hh

/-- C1: in every `_map` invocation, a work item whose output blob already
exists contributes its fingerprint to the handle's ordered fingerprint
sequence but is excluded from the submission batch, and its input blob is
not (re)written during the invocation; if every item is satisfied this
way no scheduler submission is made, and the returned handle carries
`clusterid = none` while still holding the full fingerprint sequence.
Consequently, once the execution wrapper has deposited the outputs of the
first invocation's submission (so that every fingerprint is satisfied),
invoking the same named map again with the same arguments submits zero
new work items: no submission, `clusterid = none`, and the same full
fingerprint sequence. -/
theorem runMap_satisfied_spec {AK : Type} (hashOf : AK → Fingerprint)
    (cid cid2 : Nat) (st : MapState) (items : List AK) :
    (runMap hashOf cid st items).result.hashes = items.map hashOf
    ∧ (runMap hashOf cid st items).state.inputWrites =
        st.inputWrites ++ newBatch st (items.map hashOf)
    ∧ (∀ h, h ∈ st.outputs →
        (∀ c b, (runMap hashOf cid st items).submission = some (c, b) → h ∉ b)
        ∧ h ∉ ((runMap hashOf cid st items).state.inputWrites.drop
                 st.inputWrites.length))
    ∧ ((∀ a ∈ items, hashOf a ∈ st.outputs) →
        (runMap hashOf cid st items).submission = none
        ∧ (runMap hashOf cid st items).result.clusterid = none
        ∧ (runMap hashOf cid st items).result.hashes = items.map hashOf)
    ∧ ((runMap hashOf cid2
          (wrapperComplete (runMap hashOf cid st items)) items).submission = none
        ∧ (runMap hashOf cid2
            (wrapperComplete (runMap hashOf cid st items)) items).result.clusterid
            = none
        ∧ (runMap hashOf cid2
            (wrapperComplete (runMap hashOf cid st items)) items).result.hashes
            = (runMap hashOf cid st items).result.hashes) := by
  have hbatch : ∀ h, h ∈ newBatch st (items.map hashOf) → h ∉ st.outputs :=
    fun h hh => (mem_newBatch.mp hh).2
  have hhashes : (runMap hashOf cid st items).result.hashes = items.map hashOf := by
    rw [runMap_eq]; split <;> rfl
  have hwrites : (runMap hashOf cid st items).state.inputWrites =
      st.inputWrites ++ newBatch st (items.map hashOf) := by
    rw [runMap_eq]; split <;> rfl
  have hsub : (runMap hashOf cid st items).submission =
      if (newBatch st (items.map hashOf)).isEmpty then none
      else some (cid, newBatch st (items.map hashOf)) := by
    rw [runMap_eq]; split <;> simp_all
  have houtputs : (runMap hashOf cid st items).state.outputs = st.outputs := by
    rw [runMap_eq]; split <;> rfl
  refine ⟨hhashes, hwrites, ?_, ?_, ?_⟩
  · intro h hmem
    constructor
    · intro c b hs2
      rw [hsub] at hs2
      by_cases he : (newBatch st (items.map hashOf)).isEmpty
      · simp [he] at hs2
      · simp [he] at hs2
        intro hb
        rw [← hs2.2] at hb
        exact hbatch h hb hmem
    · rw [hwrites, List.drop_left]
      intro hb
      exact hbatch h hb hmem
  · intro hall
    have hnil : newBatch st (items.map hashOf) = [] := by
      rw [newBatch_eq_nil_iff]
      intro h hh
      obtain ⟨a, ha, rfl⟩ := List.mem_map.mp hh
      exact hall a ha
    have he : (newBatch st (items.map hashOf)).isEmpty := by
      rw [hnil]; rfl
    refine ⟨by rw [hsub]; simp [he], ?_, hhashes⟩
    rw [runMap_eq]
    simp only [he, if_true]
  · -- second invocation after the wrapper has completed the first batch
    have hout2 : (wrapperComplete (runMap hashOf cid st items)).outputs =
        if (newBatch st (items.map hashOf)).isEmpty then st.outputs
        else st.outputs ++ newBatch st (items.map hashOf) := by
      unfold wrapperComplete
      rw [hsub]
      by_cases he : (newBatch st (items.map hashOf)).isEmpty
      · simp [he, houtputs]
      · simp [he, houtputs]
    have hall2 : ∀ a ∈ items,
        hashOf a ∈ (wrapperComplete (runMap hashOf cid st items)).outputs := by
      intro a ha
      rw [hout2]
      by_cases he : (newBatch st (items.map hashOf)).isEmpty
      · simp only [he, if_true]
        by_cases hmem : hashOf a ∈ st.outputs
        · exact hmem
        · exfalso
          have : hashOf a ∈ newBatch st (items.map hashOf) :=
            mem_newBatch.mpr ⟨List.mem_map_of_mem hashOf ha, hmem⟩
          rw [List.isEmpty_iff] at he
          rw [he] at this
          simp at this
      · simp only [he, if_false]
        by_cases hmem : hashOf a ∈ st.outputs
        · exact List.mem_append_left _ hmem
        · exact List.mem_append_right _
            (mem_newBatch.mpr ⟨List.mem_map_of_mem hashOf ha, hmem⟩)
    have hnil2 : newBatch (wrapperComplete (runMap hashOf cid st items))
        (items.map hashOf) = [] := by
      rw [newBatch_eq_nil_iff]
      intro h hh
      obtain ⟨a, ha, rfl⟩ := List.mem_map.mp hh
      exact hall2 a ha
    have he2 : (newBatch (wrapperComplete (runMap hashOf cid st items))
        (items.map hashOf)).isEmpty := by
      rw [hnil2]; rfl
    refine ⟨?_, ?_, ?_⟩
    · rw [runMap_eq]; simp only [he2, if_true]
    · rw [runMap_eq]; simp only [he2, if_true]
    · rw [runMap_eq]; simp only [he2, if_true]; rw [hhashes]

/-- Witness for C1: a single item whose output already exists; the second
part of the conjunction shows the all-satisfied branch returns no
submission and no cluster id at this concrete input. -/
theorem runMap_satisfied_spec_witness :
    (runMap (fun _ : Nat => (['a'] : Fingerprint)) 3
        ⟨[['a']], [], []⟩ [0]).submission = none
    ∧ (runMap (fun _ : Nat => (['a'] : Fingerprint)) 3
        ⟨[['a']], [], []⟩ [0]).result.clusterid = none
    ∧ (runMap (fun _ : Nat => (['a'] : Fingerprint)) 3
        ⟨[['a']], [], []⟩ [0]).result.hashes = [['a']] := by
  have h := runMap_satisfied_spec (fun _ : Nat => (['a'] : Fingerprint)) 3 4
    ⟨[['a']], [], []⟩ [0]
  have h5 := h.2.2.2.1 (by decide)
  exact ⟨h5.1, h5.2.1, h5.2.2⟩


theorem hex_not_whitespace {c : Char} (hc : isHexDigit c = true) :
    isPyWhitespace c = false := by
  have hm : c ∈ hexAlphabet := of_decide_eq_true hc
  fin_cases hm <;> rfl

theorem hex_ne_newline {c : Char} (hc : isHexDigit c = true) : c ≠ '\n' := by
  intro he
  subst he
  exact absurd hc (by decide)

theorem dropWhile_ws_of_hex {l : List Char} (hl : ∀ c ∈ l, isHexDigit c = true) :
    l.dropWhile isPyWhitespace = l := by
  cases l with
  | nil => rfl
  | cons c t =>
    have hc : isPyWhitespace c = false :=
      hex_not_whitespace (hl c (List.mem_cons_self c t))
    simp [List.dropWhile_cons, hc]

theorem pyStrip_hex {h : List Char} (hh : ∀ c ∈ h, isHexDigit c = true) :
    pyStrip h = h := by
  unfold pyStrip
  rw [dropWhile_ws_of_hex hh]
  rw [dropWhile_ws_of_hex (by intro c hc; exact hh c (List.mem_reverse.mp hc))]
  exact List.reverse_reverse h

theorem pyStrip_hex_newline {h : List Char} (hne : h ≠ [])
    (hh : ∀ c ∈ h, isHexDigit c = true) : pyStrip (h ++ ['\n']) = h := by
  obtain ⟨c, t, rfl⟩ := List.exists_cons_of_ne_nil hne
  have hc : isPyWhitespace c = false :=
    hex_not_whitespace (hh c (List.mem_cons_self c t))
  have h1 : List.dropWhile isPyWhitespace ((c :: t) ++ ['\n']) =
      (c :: t) ++ ['\n'] := by
    rw [List.cons_append, List.dropWhile_cons, hc]
    simp
  unfold pyStrip
  rw [h1]
  have h2 : ((c :: t) ++ ['\n']).reverse = '\n' :: (c :: t).reverse := by
    simp
  rw [h2, List.dropWhile_cons]
  have hnl : isPyWhitespace '\n' = true := by decide
  rw [hnl]
  simp only [if_true]
  rw [dropWhile_ws_of_hex (fun d hd => hh d (List.mem_reverse.mp hd))]
  exact List.reverse_reverse _

theorem pyLinesAux_no_newline {h : List Char} (hnl : ∀ c ∈ h, c ≠ '\n') :
    ∀ acc : List Char, acc.reverse ++ h ≠ [] →
      pyLinesAux acc h = [acc.reverse ++ h] := by
  induction h with
  | nil =>
    intro acc hne
    simp only [List.append_nil] at hne ⊢
    have hacc : ¬ acc.isEmpty := by
      intro he
      rw [List.isEmpty_iff] at he
      subst he
      exact hne rfl
    simp [pyLinesAux, hacc]
  | cons c cs ih =>
    intro acc _
    have hc : c ≠ '\n' := hnl c (List.mem_cons_self c cs)
    simp only [pyLinesAux, if_neg hc]
    have h1 := ih (fun d hd => hnl d (List.mem_cons_of_mem c hd)) (c :: acc)
      (by simp)
    rw [h1]
    simp

theorem pyLinesAux_split {h : List Char} (hnl : ∀ c ∈ h, c ≠ '\n') :
    ∀ (rest : List Char) (acc : List Char),
      pyLinesAux acc (h ++ '\n' :: rest) =
        ((acc.reverse ++ h) ++ ['\n']) :: pyLinesAux [] rest := by
  induction h with
  | nil =>
    intro rest acc
    simp [pyLinesAux]
  | cons c cs ih =>
    intro rest acc
    have hc : c ≠ '\n' := hnl c (List.mem_cons_self c cs)
    simp only [List.cons_append, pyLinesAux, if_neg hc, List.append_eq]
    rw [ih (fun d hd => hnl d (List.mem_cons_of_mem c hd)) rest (c :: acc)]
    simp

theorem valid_no_newline {h : Fingerprint} (hv : validFingerprint h = true) :
    ∀ c ∈ h, c ≠ '\n' := by
  intro c hc
  simp only [validFingerprint, Bool.and_eq_true, List.all_eq_true] at hv
  exact hex_ne_newline (hv.2 c hc)

theorem valid_ne_nil {h : Fingerprint} (hv : validFingerprint h = true) :
    h ≠ [] := by
  simp only [validFingerprint, Bool.and_eq_true] at hv
  intro he
  rw [he] at hv
  exact absurd hv.1 (by decide)

theorem valid_all_hex {h : Fingerprint} (hv : validFingerprint h = true) :
    ∀ c ∈ h, isHexDigit c = true := by
  simp only [validFingerprint, Bool.and_eq_true, List.all_eq_true] at hv
  exact hv.2

/-- Reading back a newline-joined manifest recovers exactly the written
fingerprint sequence, provided every fingerprint is a nonempty hex
string. -/
theorem pyLines_pyJoin (hs : List (List Char)) (hne : hs ≠ [])
    (hv : ∀ h ∈ hs, validFingerprint h = true) :
    (pyLines (pyJoin ['\n'] hs)).map pyStrip = hs := by
  induction hs with
  | nil => exact absurd rfl hne
  | cons h t ih =>
    cases t with
    | nil =>
      have hv1 := hv h (List.mem_cons_self h [])
      simp only [pyJoin, pyLines]
      rw [pyLinesAux_no_newline (valid_no_newline hv1) []
        (by simpa using valid_ne_nil hv1)]
      simp only [List.reverse_nil, List.nil_append, List.map_cons, List.map_nil]
      rw [pyStrip_hex (valid_all_hex hv1)]
    | cons h2 t2 =>
      have hv1 := hv h (List.mem_cons_self h (h2 :: t2))
      have hjoin : pyJoin ['\n'] (h :: h2 :: t2) =
          h ++ '\n' :: pyJoin ['\n'] (h2 :: t2) := by
        show h ++ ['\n'] ++ pyJoin ['\n'] (h2 :: t2) =
          h ++ '\n' :: pyJoin ['\n'] (h2 :: t2)
        simp
      rw [hjoin]
      simp only [pyLines]
      rw [pyLinesAux_split (valid_no_newline hv1) (pyJoin ['\n'] (h2 :: t2)) []]
      simp only [List.reverse_nil, List.nil_append, List.map_cons]
      rw [pyStrip_hex_newline (valid_ne_nil hv1) (valid_all_hex hv1)]
      have iht := ih (by simp) (fun g hg => hv g (List.mem_cons_of_mem h hg))
      simp only [pyLines] at iht
      rw [iht]

/-- C2: when at least one work item is unsatisfied, the manifest mapping
the new cluster id to the newline-joined full ordered fingerprint
sequence (satisfied and unsatisfied items alike) is present in the state
returned by `_map`, and reconstructing a handle from the cluster id alone
(`MapResult.from_clusterid`) yields a handle whose `hashes` sequence
equals the originally returned handle's `hashes` sequence.  Fingerprints
are assumed to be nonempty hex strings, per the spec's fingerprint data
model (htcio's hash function is not part of the sources). -/
theorem runMap_manifest_roundtrip {AK : Type} (hashOf : AK → Fingerprint)
    (cid : Nat) (st : MapState) (items : List AK)
    (hvalid : ∀ a ∈ items, validFingerprint (hashOf a) = true)
    (hnew : ∃ a, a ∈ items ∧ hashOf a ∉ st.outputs) :
    lookupManifest (runMap hashOf cid st items).state cid =
      some (pyJoin ['\n'] (items.map hashOf))
    ∧ from_clusterid (runMap hashOf cid st items).state cid =
        some ⟨some cid, (runMap hashOf cid st items).result.hashes⟩
    ∧ (runMap hashOf cid st items).result.hashes = items.map hashOf := by
  obtain ⟨a, ha, hna⟩ := hnew
  have hmem : hashOf a ∈ newBatch st (items.map hashOf) :=
    mem_newBatch.mpr ⟨List.mem_map_of_mem hashOf ha, hna⟩
  have he : ¬ (newBatch st (items.map hashOf)).isEmpty := by
    intro he
    rw [List.isEmpty_iff] at he
    rw [he] at hmem
    simp at hmem
  have hlook : lookupManifest (runMap hashOf cid st items).state cid =
      some (pyJoin ['\n'] (items.map hashOf)) := by
    rw [runMap_eq]
    simp only [he, if_false]
    unfold lookupManifest
    simp [List.find?_cons]
  have hhashes : (runMap hashOf cid st items).result.hashes =
      items.map hashOf := by
    rw [runMap_eq]; split <;> rfl
  refine ⟨hlook, ?_, hhashes⟩
  unfold from_clusterid
  rw [hlook, hhashes]
  simp only [Option.map_some']
  have hroundtrip : (pyLines (pyJoin ['\n'] (items.map hashOf))).map pyStrip =
      items.map hashOf := by
    refine pyLines_pyJoin (items.map hashOf) ?_ ?_
    · intro hnil
      rw [hnil] at hmem
      simp [newBatch] at hmem
    · intro g hg
      obtain ⟨b, hb, rfl⟩ := List.mem_map.mp hg
      exact hvalid b hb
  rw [hroundtrip]

/-- Witness for C2 at a concrete input: one unsatisfied item with
fingerprint `"a"`; the manifest written under cluster id 7 reconstructs
the handle's fingerprint sequence. -/
theorem runMap_manifest_roundtrip_witness :
    lookupManifest (runMap (fun _ : Nat => (['a'] : Fingerprint)) 7
        ⟨[], [], []⟩ [0]).state 7 = some ['a']
    ∧ from_clusterid (runMap (fun _ : Nat => (['a'] : Fingerprint)) 7
        ⟨[], [], []⟩ [0]).state 7 = some ⟨some 7, [['a']]⟩ := by
  have h := runMap_manifest_roundtrip (fun _ : Nat => (['a'] : Fingerprint)) 7
    ⟨[], [], []⟩ [0] (by decide) ⟨0, by decide, by decide⟩
  exact ⟨h.1, h.2.1⟩

/-- The exception classes of the `exceptions` module referenced by
`MapResult.get` (the module itself is not under src/; the classes carry no
behaviour beyond their identity).  `IndexError` is Python's built-in,
raised by out-of-range tuple indexing in `_item_to_hash`. -/
inductive HTCErr where
  | TimeoutError
  | OutputNotFound
  | HashNotInResult
  | IndexError
deriving DecidableEq

/-- An argument to `MapResult.get`: a position or a fingerprint
(`IndexOrHash = Union[int, str]`, mapper.py:51). -/
inductive IndexOrHash where
  | idx (i : Int)
  | hash (h : Fingerprint)

/-- Python sequence indexing `xs[i]`: a negative index counts from the
end; out of range is `None` (an `IndexError` at the call site). -/
def pyIndex {α : Type} (l : List α) (i : Int) : Option α :=
  let j := if i < 0 then i + l.length else i
  if 0 ≤ j then l[j.toNat]? else none

/-- Embedding of `MapResult._item_to_hash` (mapper.py:77): an `int` item
indexes into the hashes tuple (raising `IndexError` when out of range), a
`str` item is returned unchanged. -/
def MapResult.item_to_hash (r : MapResult) : IndexOrHash → Except HTCErr Fingerprint
  | .idx i =>
    match pyIndex r.hashes i with
    | some h => .ok h
    | none => .error .IndexError
  | .hash h => .ok h

/-- Modelled from the spec: `utils.wait_for_path_to_exist` is not under
src/.  Per the spec (section 4.4), it blocks, polling, until the path
exists or the timeout elapses, raising `TimeoutError` on expiry; a zero
timeout is a single non-blocking check.  `arrival` is the time (seconds
from the call) at which the file appears, `none` if it never does;
`timeout` is the timeout in seconds. -/
def wait_for_path_to_exist (arrival : Option Nat) (timeout : Int) :
    Except HTCErr Unit :=
  match arrival with
  | some t => if (t : Int) ≤ timeout then .ok () else .error .TimeoutError
  | none => .error .TimeoutError

/-- Embedding of `MapResult.get` (mapper.py:86): resolve the item to a
fingerprint, fail with `HashNotInResult` if it is not in the handle's
hash set, wait for the output blob, converting a `TimeoutError` into
`OutputNotFound` exactly when the requested timeout was non-positive, and
load the output.  `arrival h` is the time at which `<outputs>/<h>.out`
appears and `out h` the deserialized blob at that path. -/
def MapResult.get {Out : Type} (r : MapResult)
    (arrival : Fingerprint → Option Nat) (out : Fingerprint → Out)
    (item : IndexOrHash) (timeout : Int) : Except HTCErr Out :=
  match r.item_to_hash item with
  | .error e => .error e
  | .ok h =>
    if h ∈ r.hashes then
      match wait_for_path_to_exist (arrival h) timeout with
      | .ok _ => .ok (out h)
      | .error .TimeoutError =>
        if timeout ≤ 0 then .error .OutputNotFound else .error .TimeoutError
      | .error e => .error e
    else
      .error .HashNotInResult

/-- C6: for an item of the handle whose output blob never appears,
`get` with timeout 0 fails with `OutputNotFound` and `get` with positive
timeout `t` fails with `TimeoutError`; for a non-negative timeout,
`OutputNotFound` is raised in place of `TimeoutError` exactly when the
timeout was zero; and a positive-timeout `get` returns the output when
the blob appears at time `ta ≤ t`. -/
theorem get_timeout_spec {Out : Type} (r : MapResult)
    (arrival : Fingerprint → Option Nat) (out : Fingerprint → Out)
    (h : Fingerprint) (hmem : h ∈ r.hashes) (t : Int) :
    (arrival h = none →
      MapResult.get r arrival out (.hash h) 0 = .error .OutputNotFound
      ∧ (0 < t → MapResult.get r arrival out (.hash h) t = .error .TimeoutError)
      ∧ (0 ≤ t →
          (MapResult.get r arrival out (.hash h) t = .error .OutputNotFound ↔
            t = 0)))
    ∧ (∀ ta, arrival h = some ta → 0 < t → (ta : Int) ≤ t →
        MapResult.get r arrival out (.hash h) t = .ok (out h)) := by
  constructor
  · intro hnone
    have hbase : ∀ s : Int, MapResult.get r arrival out (.hash h) s =
        if s ≤ 0 then .error .OutputNotFound else .error .TimeoutError := by
      intro s
      simp only [MapResult.get, MapResult.item_to_hash, if_pos hmem,
        wait_for_path_to_exist, hnone]
    refine ⟨by rw [hbase]; simp, ?_, ?_⟩
    · intro ht
      rw [hbase]
      rw [if_neg (by omega)]
    · intro ht
      rw [hbase]
      by_cases hz : t ≤ 0
      · rw [if_pos hz]
        simp
        omega
      · rw [if_neg hz]
        constructor
        · intro hcontr
          exact absurd hcontr (by simp)
        · intro hcontr
          omega
  · intro ta hta hpos hle
    simp only [MapResult.get, MapResult.item_to_hash, if_pos hmem,
      wait_for_path_to_exist, hta, if_pos hle]

/-- Witness for C6: a handle over the single fingerprint `"a"` whose
output never appears (timeouts 0 and 3) and one whose output appears at
time 2 with timeout 3. -/
theorem get_timeout_spec_witness :
    MapResult.get ⟨some 1, [['a']]⟩ (fun _ => none) (fun _ => (0 : Nat))
        (.hash ['a']) 0 = .error .OutputNotFound
    ∧ MapResult.get ⟨some 1, [['a']]⟩ (fun _ => none) (fun _ => (0 : Nat))
        (.hash ['a']) 3 = .error .TimeoutError
    ∧ MapResult.get ⟨some 1, [['a']]⟩ (fun _ => some 2) (fun _ => (42 : Nat))
        (.hash ['a']) 3 = .ok 42 := by
  have h1 := get_timeout_spec ⟨some 1, [['a']]⟩ (fun _ => none)
    (fun _ => (0 : Nat)) ['a'] (by decide) 3
  have h2 := get_timeout_spec ⟨some 1, [['a']]⟩ (fun _ => some 2)
    (fun _ => (42 : Nat)) ['a'] (by decide) 3
  exact ⟨(h1.1 rfl).1, (h1.1 rfl).2.1 (by decide),
    h2.2 2 rfl (by decide) (by decide)⟩

theorem pyIndex_out_of_range {α : Type} (l : List α) (i : Int)
    (hi : i < -(l.length : Int) ∨ (l.length : Int) ≤ i) : pyIndex l i = none := by
  unfold pyIndex
  by_cases hneg : i < 0
  · have hj : i + (l.length : Int) < 0 := by
      rcases hi with hi | hi
      · omega
      · omega
    simp only [if_pos hneg]
    rw [if_neg (by omega)]
  · have hge : (l.length : Int) ≤ i := by
      rcases hi with hi | hi
      · omega
      · exact hi
    simp only [if_neg hneg]
    rw [if_pos (by omega)]
    exact List.getElem?_eq_none (by omega)

theorem pyIndex_in_range {α : Type} (l : List α) (i : Int)
    (h1 : -(l.length : Int) ≤ i) (h2 : i < (l.length : Int)) :
    ∃ x, pyIndex l i = some x ∧ x ∈ l := by
  unfold pyIndex
  by_cases hneg : i < 0
  · have hj : 0 ≤ i + (l.length : Int) := by omega
    have hlt : (i + (l.length : Int)).toNat < l.length := by omega
    simp only [if_pos hneg]
    rw [if_pos hj]
    exact ⟨_, List.getElem?_eq_getElem hlt, List.getElem_mem hlt⟩
  · have hj : (0 : Int) ≤ i := by omega
    have hlt : i.toNat < l.length := by omega
    simp only [if_neg hneg]
    rw [if_pos hj]
    exact ⟨_, List.getElem?_eq_getElem hlt, List.getElem_mem hlt⟩

theorem wait_error_timeout {arrival : Option Nat} {timeout : Int} {e : HTCErr}
    (hw : wait_for_path_to_exist arrival timeout = .error e) :
    e = .TimeoutError := by
  cases arrival with
  | none =>
    simp only [wait_for_path_to_exist, Except.error.injEq] at hw
    exact hw.symm
  | some ta =>
    simp only [wait_for_path_to_exist] at hw
    by_cases hta : (ta : Int) ≤ timeout
    · rw [if_pos hta] at hw
      exact Except.noConfusion hw
    · rw [if_neg hta] at hw
      exact (Except.error.inj hw).symm

/-- C8 counterexample: requesting an out-of-range index does NOT fail
with `HashNotInResult`; `self.hashes[item]` raises Python's built-in
`IndexError` instead (here: index 5 into a one-element handle). -/
theorem get_index_error_counterexample :
    MapResult.get ⟨some 1, [['a']]⟩ (fun _ => none) (fun _ => (0 : Nat))
        (.idx 5) 0 = .error .IndexError
    ∧ MapResult.get ⟨some 1, [['a']]⟩ (fun _ => none) (fun _ => (0 : Nat))
        (.idx 5) 0 ≠ .error .HashNotInResult := by
  refine ⟨rfl, ?_⟩
  intro hcontr
  rw [show MapResult.get (⟨some 1, [['a']]⟩ : MapResult) (fun _ => none)
      (fun _ => (0 : Nat)) (.idx 5) 0 = Except.error HTCErr.IndexError
    from rfl] at hcontr
  exact absurd hcontr (by simp)

/-- C8 amended: a fingerprint string not in the handle's sequence fails
with `HashNotInResult`; an index outside Python's valid range
(`-n ≤ i < n` for a sequence of length `n`) fails with `IndexError`, not
`HashNotInResult`; and an in-range index always resolves to a member of
the sequence, so it never fails with `HashNotInResult`. -/
theorem get_missing_item_spec {Out : Type} (r : MapResult)
    (arrival : Fingerprint → Option Nat) (out : Fingerprint → Out) (t : Int) :
    (∀ h, h ∉ r.hashes →
      MapResult.get r arrival out (.hash h) t = .error .HashNotInResult)
    ∧ (∀ i : Int, i < -(r.hashes.length : Int) ∨ (r.hashes.length : Int) ≤ i →
        MapResult.get r arrival out (.idx i) t = .error .IndexError)
    ∧ (∀ i : Int, -(r.hashes.length : Int) ≤ i → i < (r.hashes.length : Int) →
        MapResult.get r arrival out (.idx i) t ≠ .error .HashNotInResult) := by
  refine ⟨?_, ?_, ?_⟩
  · intro h hmem
    simp only [MapResult.get, MapResult.item_to_hash, if_neg hmem]
  · intro i hi
    simp only [MapResult.get, MapResult.item_to_hash,
      pyIndex_out_of_range r.hashes i hi]
  · intro i h1 h2
    obtain ⟨x, hx, hxm⟩ := pyIndex_in_range r.hashes i h1 h2
    simp only [MapResult.get, MapResult.item_to_hash, hx, if_pos hxm]
    cases hw : wait_for_path_to_exist (arrival x) t with
    | ok u => simp
    | error e =>
      have he := wait_error_timeout hw
      subst he
      by_cases hz : t ≤ 0
      · simp [hz]
      · simp [hz]

/-- Witness for C8 (amended): an unknown fingerprint fails with
`HashNotInResult`, an out-of-range index with `IndexError`, and a
negative in-range index (-1) does not raise `HashNotInResult`. -/
theorem get_missing_item_spec_witness :
    MapResult.get ⟨some 1, [['a']]⟩ (fun _ => none) (fun _ => (0 : Nat))
        (.hash ['b']) 0 = .error .HashNotInResult
    ∧ MapResult.get ⟨some 1, [['a']]⟩ (fun _ => none) (fun _ => (0 : Nat))
        (.idx (-2)) 0 = .error .IndexError
    ∧ MapResult.get ⟨some 1, [['a']]⟩ (fun _ => none) (fun _ => (0 : Nat))
        (.idx (-1)) 0 ≠ .error .HashNotInResult := by
  have h := get_missing_item_spec ⟨some 1, [['a']]⟩ (fun _ => none)
    (fun _ => (0 : Nat)) 0
  exact ⟨h.1 ['b'] (by decide), h.2.1 (-2) (by decide),
    h.2.2 (-1) (by decide) (by decide)⟩

/-- Embedding of `MapResult.iter` (mapper.py:130) in the setting where
every requested output eventually exists (the claims' setting): the loop
waits on each fingerprint's output path in request order (with no
timeout the wait always succeeds once the blob arrives) and yields the
deserialized blob `out h`, so the yielded sequence is the request-order
image of the fingerprint sequence. -/
def iterOutputs {Out : Type} (out : Fingerprint → Out)
    (hashes : List Fingerprint) : List Out :=
  hashes.map out

/-- The scan loop of `MapResult.iter_as_available` (mapper.py:166):
each round `r` (one `time.sleep(1)` apart) iterates over a copy of the
pending path set, yields every path that now exists (`arrival h ≤ r`)
and keeps the rest.  The set is modelled as a list scanned in a fixed
order; `fuel` bounds the number of rounds (the caller supplies enough
for the last arrival, making the model total like the source loop,
which runs until the pending set is empty). -/
def iterAALoop (arrival : Fingerprint → Nat) :
    Nat → Nat → List Fingerprint → List Fingerprint
  | 0, _, _ => []
  | fuel + 1, r, pending =>
    if pending.isEmpty then []
    else
      pending.filter (fun h => decide (arrival h ≤ r)) ++
        iterAALoop arrival fuel (r + 1)
          (pending.filter (fun h => ! decide (arrival h ≤ r)))

/-- The latest arrival time among a set of fingerprints. -/
def maxArrival (arrival : Fingerprint → Nat) (l : List Fingerprint) : Nat :=
  l.foldr (fun h m => max (arrival h) m) 0

/-- Embedding of `MapResult.iter_as_available`: the pending collection is
the SET of output paths, one per distinct fingerprint of the handle
(a Python set comprehension over the hashes), modelled as the
deduplicated fingerprint list; the loop yields each pending fingerprint
in the round its output arrives, scanning until the set is empty.
Returns the fingerprints in yield order. -/
def iter_as_available (arrival : Fingerprint → Nat)
    (hashes : List Fingerprint) : List Fingerprint :=
  iterAALoop arrival (maxArrival arrival hashes.dedup + 1) 0 hashes.dedup

theorem le_maxArrival (arrival : Fingerprint → Nat) {l : List Fingerprint}
    {h : Fingerprint} (hm : h ∈ l) : arrival h ≤ maxArrival arrival l := by
  induction l with
  | nil => cases hm
  | cons x t ih =>
    rcases List.mem_cons.mp hm with hm | hm
    · subst hm
      simp [maxArrival]
    · have := ih hm
      simp only [maxArrival, List.foldr_cons] at this ⊢
      omega

theorem iterAALoop_perm (arrival : Fingerprint → Nat) :
    ∀ (fuel r : Nat) (pending : List Fingerprint),
      (∀ h ∈ pending, arrival h < r + fuel) →
      (pending ≠ [] → 0 < fuel) →
      List.Perm (iterAALoop arrival fuel r pending) pending := by
  intro fuel
  induction fuel with
  | zero =>
    intro r pending _ hpos
    cases pending with
    | nil => simp [iterAALoop]
    | cons p ps => exact absurd (hpos (by simp)) (by omega)
  | succ fuel ih =>
    intro r pending hb _
    by_cases hp : pending.isEmpty
    · rw [List.isEmpty_iff] at hp
      subst hp
      simp [iterAALoop]
    · simp only [iterAALoop, hp, if_false]
      have hrest : ∀ h ∈ pending.filter (fun h => ! decide (arrival h ≤ r)),
          arrival h < (r + 1) + fuel := by
        intro h hh
        rw [List.mem_filter] at hh
        have h1 := hb h hh.1
        have h2 : ¬ arrival h ≤ r := by
          have := hh.2
          simp at this
          omega
        omega
      have hpos2 : pending.filter (fun h => ! decide (arrival h ≤ r)) ≠ [] →
          0 < fuel := by
        intro hne
        obtain ⟨h, hh⟩ := List.exists_mem_of_ne_nil _ hne
        rw [List.mem_filter] at hh
        have h1 := hb h hh.1
        have h2 : ¬ arrival h ≤ r := by
          have := hh.2
          simp at this
          omega
        omega
      refine List.Perm.trans
        (List.Perm.append_left (pending.filter (fun h => decide (arrival h ≤ r)))
          (ih (r + 1) (pending.filter (fun h => ! decide (arrival h ≤ r)))
            hrest hpos2))
        ?_
      exact List.filter_append_perm (fun h => decide (arrival h ≤ r)) pending

theorem iterAA_perm_dedup (arrival : Fingerprint → Nat)
    (hashes : List Fingerprint) :
    List.Perm (iter_as_available arrival hashes) hashes.dedup := by
  refine iterAALoop_perm arrival (maxArrival arrival hashes.dedup + 1) 0
    hashes.dedup ?_ ?_
  · intro h hh
    have := le_maxArrival arrival hh
    omega
  · intro _
    omega

/-- C7 counterexample: for a handle whose fingerprint sequence contains a
duplicate (producible by mapping the same argument twice), the claim
fails: `iter` yields one output per requested item (two here), while
`iter_as_available` iterates over the SET of output paths and yields the
duplicated item's output only once, so the two do not agree up to
order. -/
theorem iter_as_available_counterexample :
    ¬ List.Perm ((iter_as_available (fun _ => 0) [['a'], ['a']]).map (fun h => h))
        (iterOutputs (fun h => h) [['a'], ['a']]) :=
  fun hp => absurd hp.length_eq (by decide)

/-- C7 amended: for every handle whose fingerprint sequence is
duplicate-free, and for any interleaving of output-file arrival times,
`iter_as_available` yields exactly the same outputs as `iter` — one
output per requested item, each exactly once — differing only in order
(stated as a permutation of the yielded output sequences).  For
sequences with duplicates, `iter_as_available` yields each distinct
fingerprint's output exactly once while `iter` repeats it. -/
theorem iter_as_available_perm {Out : Type} (arrival : Fingerprint → Nat)
    (out : Fingerprint → Out) (hashes : List Fingerprint)
    (hnd : hashes.Nodup) :
    List.Perm ((iter_as_available arrival hashes).map out)
      (iterOutputs out hashes) := by
  have hp := iterAA_perm_dedup arrival hashes
  rw [List.dedup_eq_self.mpr hnd] at hp
  exact hp.map out

/-- Witness for C7 (amended) at a concrete duplicate-free handle with a
reversed arrival order (the second fingerprint's output arrives first). -/
theorem iter_as_available_perm_witness :
    List.Perm ((iter_as_available (fun h => if h = ['a'] then 5 else 0)
        [['a'], ['b']]).map (fun h => h))
      (iterOutputs (fun h => h) [['a'], ['b']]) :=
  iter_as_available_perm (fun h => if h = ['a'] then 5 else 0)
    (fun h => h) [['a'], ['b']] (by decide)

/-- The input-blob path `inputs_dir / (h + ".in")` used by
`iter_with_inputs` (mapper.py:156), as a character string. -/
def inputPath (inputs_dir : List Char) (h : Fingerprint) : List Char :=
  inputs_dir ++ ['/'] ++ h ++ ['.', 'i', 'n']

/-- The output-blob path `outputs_dir / (h + ".out")` (mapper.py:157). -/
def outputPath (outputs_dir : List Char) (h : Fingerprint) : List Char :=
  outputs_dir ++ ['/'] ++ h ++ ['.', 'o', 'u', 't']

/-- The path pair `(input_path, output_path)` that
`MapResult.iter_with_inputs` builds for each fingerprint
(mapper.py:155-157). -/
def iter_with_inputs_pair (inputs_dir outputs_dir : List Char)
    (h : Fingerprint) : List Char × List Char :=
  (inputPath inputs_dir h, outputPath outputs_dir h)

/-- The path pair that `MapResult.iter_as_available_with_inputs` builds
for each fingerprint (mapper.py:192): the source writes
`(outputs_dir / (h + ".out"), outputs_dir / (h + ".out"))`, using the
output path for BOTH members. -/
def iter_as_available_with_inputs_pair (_inputs_dir outputs_dir : List Char)
    (h : Fingerprint) : List Char × List Char :=
  (outputPath outputs_dir h, outputPath outputs_dir h)

/-- Both iterators deserialize the blob at the pair's first member as the
"input" and at the second member as the "output"
(`inp = htcio.load_object(input_path); out = htcio.load_object(output_path)`).
`fs` maps a path to the deserialized object stored there. -/
def loadPair {Val : Type} (fs : List Char → Val)
    (pr : List Char × List Char) : Val × Val :=
  (fs pr.1, fs pr.2)

theorem inputPath_ne_outputPath (inputs_dir outputs_dir : List Char)
    (h : Fingerprint) : inputPath inputs_dir h ≠ outputPath outputs_dir h := by
  intro he
  have h1 : (inputPath inputs_dir h).getLast? = some 'n' := by
    unfold inputPath
    rw [List.getLast?_append]
    simp
  have h2 : (outputPath outputs_dir h).getLast? = some 't' := by
    unfold outputPath
    rw [List.getLast?_append]
    simp
  rw [he, h2] at h1
  exact absurd (Option.some.inj h1) (by decide)

/-- C9: the path pair that `iter_as_available_with_inputs` constructs for
each fingerprint uses the output path for both members, so every yielded
pair deserializes its "input" element from the output blob at
`outputs_dir/hash.out`, not from the input blob at `inputs_dir/hash.in`
(a distinct path) as `iter_with_inputs` does. -/
theorem iter_as_available_with_inputs_paths_spec {Val : Type}
    (fs : List Char → Val) (inputs_dir outputs_dir : List Char)
    (h : Fingerprint) :
    iter_as_available_with_inputs_pair inputs_dir outputs_dir h =
      (outputPath outputs_dir h, outputPath outputs_dir h)
    ∧ loadPair fs (iter_as_available_with_inputs_pair inputs_dir outputs_dir h) =
        (fs (outputPath outputs_dir h), fs (outputPath outputs_dir h))
    ∧ loadPair fs (iter_with_inputs_pair inputs_dir outputs_dir h) =
        (fs (inputPath inputs_dir h), fs (outputPath outputs_dir h))
    ∧ inputPath inputs_dir h ≠ outputPath outputs_dir h :=
  ⟨rfl, rfl, rfl, inputPath_ne_outputPath inputs_dir outputs_dir h⟩

/-- A Python callable relevant to the `htcmap` decorator: either a plain
function carrying its `__name__`, or an `HTCMapper` wrapping a callable
under a map name. -/
inductive PyCallable where
  | plain (n : List Char)
  | mapped (func : PyCallable) (n : List Char)
deriving DecidableEq

/-- The `func` attribute of an `HTCMapper`; a plain function has none
(modelled as the value itself, as in `func = func.func` which is only
reached for mappers). -/
def PyCallable.funcAttr : PyCallable → PyCallable
  | .plain n => .plain n
  | .mapped f _ => f

/-- Python `__name__`: defined for plain functions, absent
(`AttributeError`, modelled as `none`) on `HTCMapper` instances. -/
def pyName : PyCallable → Option (List Char)
  | .plain n => some n
  | .mapped _ _ => none

/-- Embedding of calling `htcmap` (mapper.py:33) directly on a callable
(the `@htcmap` no-parentheses path, `callable(name)` true): `wrapper`
runs immediately; if the argument is already an `HTCMapper` it is
unwrapped to its `func` attribute first, and the resulting `HTCMapper`
wraps that function under `func.__name__` (the `name` argument is not a
string here). -/
def htcmapCall (c : PyCallable) : Option PyCallable :=
  let f := match c with
    | .mapped g _ => g
    | g => g
  (pyName f).map fun n => .mapped f n

/-- C10: applying the `htcmap` decorator to a value that is already an
`HTCMapper` unwraps it first: for every plain function `f`,
`htcmap(htcmap(f))` produces an `HTCMapper` whose `func` attribute is `f`
itself — never a nested `HTCMapper` — so repeated decoration is
idempotent with respect to the wrapped function. -/
theorem htcmap_idempotent_spec (n : List Char) :
    htcmapCall (.plain n) = some (.mapped (.plain n) n)
    ∧ (htcmapCall (.plain n)).bind htcmapCall = some (.mapped (.plain n) n)
    ∧ ∀ m, (htcmapCall (.plain n)).bind htcmapCall = some m →
        m.funcAttr = .plain n := by
  refine ⟨rfl, rfl, ?_⟩
  intro m hm
  have h2 : (some (PyCallable.mapped (.plain n) n) : Option PyCallable) =
      some m := by
    rw [← hm]
    rfl
  rw [← Option.some.inj h2]
  rfl
